import Mathlib

/-!
Verification of the logmerge program (logmerge.py): a shallow embedding of
its timestamp detection, per-source entry segmentation and k-way merge,
together with theorems checking the natural-language specification.

Machine-level collaborators are abstracted as parameters:
* `strptime`/`utcfromtimestamp` (datetime value parsing, which can raise) are
  abstract functions into `Except Unit DT`;
* the user-supplied custom regex is an abstract anchored matcher
  `List Char → Option (List Char)` returning the text of capture group 1;
* the three built-in timestamp regexes are embedded concretely as character
  matchers (each `\d+` in them is immediately followed by a required
  non-digit character, so the greedy maximal digit run is the only possible
  match and backtracking can never produce a different outcome).
-/

set_option maxHeartbeats 1000000

/-! ## Timestamp detection (parse_datetime and the three built-in patterns) -/

/-- Match exactly `n` digits at the head of the input; return them and the
rest.  `Char.isDigit` models `\d` for the ASCII inputs these patterns are
written for (python `\d` would additionally accept non-ASCII Unicode
digits; no claim depends on such inputs). -/
def matchDigitsN : Nat → List Char → Option (List Char × List Char)
  | 0, cs => some ([], cs)
  | _ + 1, [] => none
  | n + 1, c :: cs =>
    if c.isDigit then (matchDigitsN n cs).map (fun dr => (c :: dr.1, dr.2)) else none

/-- Split off the maximal leading run of digits. -/
def takeDigits : List Char → List Char × List Char
  | [] => ([], [])
  | c :: cs =>
    if c.isDigit then
      let dr := takeDigits cs
      (c :: dr.1, dr.2)
    else ([], c :: cs)

/-- Match `\d+` (greedy, at least one digit) at the head of the input. -/
def matchDigits1 (cs : List Char) : Option (List Char × List Char) :=
  let dr := takeDigits cs
  if dr.1.isEmpty then none else some dr

/-- Match one literal character at the head of the input. -/
def matchLit (ch : Char) : List Char → Option (List Char)
  | [] => none
  | c :: cs => if c = ch then some cs else none

/-- `iso8601_pattern.match(line)`: the anchored regex
`(\d\d\d\d/\d\d/\d\d \d\d:\d\d:\d\d\.\d+) ` of logmerge.py; returns the text
of capture group 1 on success. -/
def iso8601Match (line : List Char) : Option (List Char) := do
  let (d1, r1) ← matchDigitsN 4 line
  let r2 ← matchLit '/' r1
  let (d2, r3) ← matchDigitsN 2 r2
  let r4 ← matchLit '/' r3
  let (d3, r5) ← matchDigitsN 2 r4
  let r6 ← matchLit ' ' r5
  let (h1, r7) ← matchDigitsN 2 r6
  let r8 ← matchLit ':' r7
  let (m1, r9) ← matchDigitsN 2 r8
  let r10 ← matchLit ':' r9
  let (s1, r11) ← matchDigitsN 2 r10
  let r12 ← matchLit '.' r11
  let (f1, r13) ← matchDigits1 r12
  let _ ← matchLit ' ' r13
  return d1 ++ '/' :: (d2 ++ '/' :: (d3 ++ ' ' :: (h1 ++ ':' :: (m1 ++ ':' :: (s1 ++ '.' :: f1)))))

/-- `cloud_init_pattern.match(line)`: the anchored regex
`(\d\d\d\d-\d\d-\d\d \d\d:\d\d:\d\d,\d\d\d) ` of logmerge.py. -/
def cloudInitMatch (line : List Char) : Option (List Char) := do
  let (d1, r1) ← matchDigitsN 4 line
  let r2 ← matchLit '-' r1
  let (d2, r3) ← matchDigitsN 2 r2
  let r4 ← matchLit '-' r3
  let (d3, r5) ← matchDigitsN 2 r4
  let r6 ← matchLit ' ' r5
  let (h1, r7) ← matchDigitsN 2 r6
  let r8 ← matchLit ':' r7
  let (m1, r9) ← matchDigitsN 2 r8
  let r10 ← matchLit ':' r9
  let (s1, r11) ← matchDigitsN 2 r10
  let r12 ← matchLit ',' r11
  let (f1, r13) ← matchDigitsN 3 r12
  let _ ← matchLit ' ' r13
  return d1 ++ '-' :: (d2 ++ '-' :: (d3 ++ ' ' :: (h1 ++ ':' :: (m1 ++ ':' :: (s1 ++ ',' :: f1)))))

/-- `timestamp_pattern.match(line)`: the anchored regex `((\d+)(\.\d+)?) ` of
logmerge.py; returns capture group 1 (the whole numeric timestamp). -/
def timestampMatch (line : List Char) : Option (List Char) :=
  match matchDigits1 line with
  | none => none
  | some (d1, r) =>
    match r with
    | '.' :: r2 =>
      match matchDigits1 r2 with
      | some (d2, r3) =>
        match r3 with
        | ' ' :: _ => some (d1 ++ '.' :: d2)
        | _ => none
      | none => none
    | ' ' :: _ => some d1
    | _ => none

/-- strptime format string used for the slash-delimited built-in pattern. -/
def isoFormat : List Char := "%Y/%m/%d %H:%M:%S.%f".data

/-- strptime format string used for the cloud-init built-in pattern. -/
def cloudInitFormat : List Char := "%Y-%m-%d %H:%M:%S,%f".data

/-- `parse_datetime(line)` of logmerge.py. The timestamp value type `DT` and
the fallible value parsers `strptime` (raising `.error` models an uncaught
`ValueError`) and `utcfromtimestamp` (which in python also performs the
`float` conversion of the captured text) are abstract parameters; the custom
pattern, when configured, is an abstract anchored matcher.

Faithful control flow: the custom pattern, when present, is tried first;
when it is absent OR does not match, control falls through to the built-in
chain (iso8601, then cloud-init, then bare epoch). -/
def parse_datetime {DT : Type}
    (strptime : List Char → List Char → Except Unit DT)
    (utcfromtimestamp : List Char → Except Unit DT)
    (custom_pattern : Option (List Char → Option (List Char)))
    (custom_format : List Char)
    (line : List Char) : Except Unit (Option DT) :=
  match (match custom_pattern with
         | some pat => pat line
         | none => none) with
  | some grp => (strptime grp custom_format).map some
  | none =>
    match iso8601Match line with
    | some grp => (strptime grp isoFormat).map some
    | none =>
      match cloudInitMatch line with
      | some grp => (strptime grp cloudInitFormat).map some
      | none =>
        match timestampMatch line with
        | some grp => (utcfromtimestamp grp).map some
        | none => .ok none

/-! ## Startup: argument checking and custom-rule configuration (main, lines 176-190) -/

/-- Python truthiness of an optional string option (`bool(args.regex)`):
`None` and the empty string are falsy. -/
def truthy : Option String → Bool
  | none => false
  | some s => s ≠ ""

/-- Outcome of the startup section of `main` (before any log file is opened). -/
inductive Startup (Pat : Type) where
  | usageExit (code : Nat)
  | crash
  | proceed (cp : Option Pat) (cf : Option String)

/-- The startup section of `main` (logmerge.py lines 177-190): the usage
checks, then configuration of the custom rule. `compile` abstracts
`re.compile` composed with the `unicode_escape` decoding; a `.error` result
models an exception raised there, which is uncaught (`Startup.crash`).
The format string is merely stored, never validated here. -/
def mainStartup {Pat : Type} (compile : String → Except Unit Pat)
    (logfiles : List String) (regex fmtStr : Option String) : Startup Pat :=
  if logfiles.length < 2 then .usageExit 1
  else if truthy fmtStr != truthy regex then .usageExit 1
  else if truthy regex then
    match regex with
    | some r =>
      match compile r with
      | .error _ => .crash
      | .ok p => .proceed (some p) fmtStr
    | none => .proceed none none
  else .proceed none none

/-! ## Prefix labels (main, lines 192-204) -/

/-- `d[k] = v` on a python dict: replace in place when the key is present,
append otherwise. -/
def dictInsert {V : Type} (k : String) (v : V) : List (String × V) → List (String × V)
  | [] => [(k, v)]
  | (k0, v0) :: rest => if k0 = k then (k0, v) :: rest else (k0, v0) :: dictInsert k v rest

/-- Lookup in a python `defaultdict`: the default value when the key is absent. -/
def lookupD {V : Type} (d : List (String × V)) (k : String) (dflt : V) : V :=
  match d.lookup k with
  | some v => v
  | none => dflt

/-- The per-file label computed in the loop body of `main`: the supplied
label (with a trailing space appended by `"{} ".format`) while `i ≤ limit`,
the generated `logN ` label otherwise. -/
def labelFor (labels : List String) (limit i : Nat) : String :=
  if i ≤ limit then labels.getD (i - 1) ("") ++ (" ") else ("log") ++ toString i ++ (" ")

/-- The label-assignment loop of `main` (lines 199-204), restricted to the
`prefixes` dict; `i` is the 1-based loop index. -/
def buildLabelsLoop (labels : List String) (limit : Nat) (noLabel : Bool) :
    Nat → List String → List (String × String) → List (String × String)
  | _, [], acc => acc
  | i, path :: rest, acc =>
    buildLabelsLoop labels limit noLabel (i + 1) rest
      (if noLabel then acc else dictInsert path (labelFor labels limit i) acc)

/-- The full prefix-label computation of `main` (lines 192-204): python
computes `colorize = args.colorize if sys.stdout.isatty() else False`,
`limit = len(args.prefix) if args.prefix else 0` and
`no_prefix = args.no_prefix or (colorize and limit == 0)`, then runs the
assignment loop over the log files with 1-based index. -/
def buildLabels (labelArg : Option (List String)) (noLabelFlag colorizeArg isatty : Bool)
    (logfiles : List String) : List (String × String) :=
  let colorize := if isatty then colorizeArg else false
  let limit := (labelArg.getD []).length
  let noLabel := noLabelFlag || (colorize && limit == 0)
  buildLabelsLoop (labelArg.getD []) limit noLabel 1 logfiles []

/-! ## render (logmerge.py lines 156-173) -/

/-- `render(line, prefix_arg, color)` of logmerge.py, on the character list
of the line. Python evaluates `line[-1]`, which raises `IndexError` on an
empty line: that crash is modelled by the `none` result. -/
def render (line : List Char) (pfx_arg : Option (List Char)) (color : Int) :
    Option (List Char) :=
  let pretext := pfx_arg.getD []
  if -1 < color ∧ color < 256 then
    match line.getLast? with
    | none => none
    | some c =>
      let pretext2 := '\x1b' :: "[38;5;".data ++ (toString color).data ++ 'm' :: pretext
      let line2 :=
        if c = '\n' then line.dropLast ++ '\x1b' :: "[0m\n".data
        else line ++ '\x1b' :: "[0m".data
      some (pretext2 ++ line2)
  else some (pretext ++ line)

/-! ## Logfile (the per-source reader, logmerge.py lines 67-118)

A source stream is the list of its remaining lines; `readline` pops the head
and returns `''` once the list is empty.  The timestamp type `T` and the
per-line detector `parse` (the non-raising behaviour of `parse_datetime`)
are parameters.  `_timestamp` is initialised by python to `datetime.max` and
is only ever read after `_advance` has overwritten it (reading it requires
`not _eof`, and `_advance` either sets `_eof` or overwrites `_timestamp`),
so the unset value is modelled by `none`. -/

structure Logfile (T : Type) where
  stream : List String
  eof : Bool
  ts : Option T
  line : String
deriving DecidableEq, Repr

/-- The `while True` loop of `Logfile._advance`: read lines, accumulating
continuation lines, until EOF (third component `none`) or a line carrying a
timestamp (third component `some (timestamp, line)`); the first component is
the accumulated entry, the second the rest of the stream. -/
def advLoop {T : Type} (parse : String → Option T) :
    List String → List String → List String × List String × Option (T × String)
  | [], acc => (acc, [], none)
  | l :: ls, acc =>
    match parse l with
    | some t => (acc, ls, some (t, l))
    | none => advLoop parse ls (acc ++ [l])

/-- `Logfile._advance`: returns the accumulated entry (starting with the
buffered `_line`) and the updated reader state. -/
def Logfile.advance {T : Type} (parse : String → Option T) (lf : Logfile T) :
    List String × Logfile T :=
  match advLoop parse lf.stream [lf.line] with
  | (res, rest, none) => (res, { lf with stream := rest, eof := true })
  | (res, rest, some (t, l)) => (res, { lf with stream := rest, ts := some t, line := l })

/-- `Logfile.__init__`: start on the full stream with `_eof = False`,
`_line = ''`, `_timestamp` unset, and run `_advance` once, discarding its
result (this skips any untimestamped lines at the beginning of the log). -/
def Logfile.init {T : Type} (parse : String → Option T) (lines : List String) : Logfile T :=
  (Logfile.advance parse { stream := lines, eof := false, ts := none, line := "" }).2

/-- `Logfile.timestamp`: raises `EOFError` when exhausted, else returns the
buffered timestamp. -/
def Logfile.timestamp {T : Type} (lf : Logfile T) : Except Unit (Option T) :=
  if lf.eof then .error () else .ok lf.ts

/-- `Logfile.entry`: raises `EOFError` when exhausted, else runs `_advance`. -/
def Logfile.entry {T : Type} (parse : String → Option T) (lf : Logfile T) :
    Except Unit (List String × Logfile T) :=
  if lf.eof then .error () else .ok (Logfile.advance parse lf)

/-! ## LogSet (the merger, logmerge.py lines 121-153)

`_logs` is an insertion-ordered dict from pathname to `Logfile`, modelled as
an association list (python dicts iterate in insertion order and deletion
preserves the order of the remaining keys). -/

/-- One step of the scan loop of `LogSet.next_entry` over
`self._logs.items()`: exhausted sources are skipped (they go to `to_delete`
instead), and a live source replaces the current best exactly when its
timestamp is `≤` the best so far.  `none` is the initial
`low_path, low_timestamp = '', datetime.max` accumulator: any timestamp
compares `≤ datetime.max`, so the first live source always replaces it.
The inner `none` timestamp case is unreachable for initialised sources
(python would compare the never-set initial `_timestamp` there). -/
def scanStep {T : Type} [LinearOrder T] (acc : Option (String × T))
    (item : String × Logfile T) : Option (String × T) :=
  if item.2.eof then acc
  else
    match item.2.ts with
    | none => acc
    | some t =>
      match acc with
      | none => some (item.1, t)
      | some (bp, bt) => if t ≤ bt then some (item.1, t) else some (bp, bt)

/-- Replace the logfile stored under pathname `p` (python mutates the
`Logfile` object held by the dict in place). -/
def setLog {T : Type} (p : String) (lf : Logfile T) (s : List (String × Logfile T)) :
    List (String × Logfile T) :=
  s.map (fun it => if it.1 = p then (p, lf) else it)

/-- `LogSet.next_entry`: raises `EOFError` (`.error`) on an empty set; scans
all sources, collecting exhausted ones into `to_delete` and the minimal
live timestamp (last one winning ties); closes and removes the exhausted
sources (the second component of the result is the list of pathnames closed
by this call, in set order); raises `EOFError` when nothing is left;
otherwise extracts the chosen source's entry.  The last three `.error`
branches model the python `KeyError`/`EOFError` paths that are unreachable
for initialised sources. -/
def nextEntry {T : Type} [LinearOrder T] (parse : String → Option T)
    (s : List (String × Logfile T)) :
    Except Unit ((String × List String) × List (String × Logfile T)) × List String :=
  if s.isEmpty then (.error (), [])
  else
    let toDelete := (s.filter (fun it => it.2.eof)).map Prod.fst
    let best := s.foldl scanStep none
    let remaining := s.filter (fun it => !it.2.eof)
    if remaining.isEmpty then (.error (), toDelete)
    else
      match best with
      | none => (.error (), toDelete)
      | some (p, _) =>
        match remaining.lookup p with
        | none => (.error (), toDelete)
        | some lf =>
          if lf.eof then (.error (), toDelete)
          else
            let adv := Logfile.advance parse lf
            (.ok ((p, adv.1), setLog p adv.2 remaining), toDelete)

/-- `LogSet.__init__(pathnames)`: each path is opened and stored under its
pathname key in supply order (`files` pairs each pathname with the line list
of the file it denotes). -/
def initLogSet {T : Type} (parse : String → Option T)
    (files : List (String × List String)) : List (String × Logfile T) :=
  files.foldl (fun acc it => dictInsert it.1 (Logfile.init parse it.2) acc) []

/-- The `while True` loop of `main` (lines 207-213), with explicit fuel:
repeatedly call `next_entry`, collecting the emitted `(path, entry)` pairs
and the pathnames closed along the way; the third component records whether
the loop terminated through `EOFError` (python then runs `exit(0)`). -/
def runMerge {T : Type} [LinearOrder T] (parse : String → Option T) :
    Nat → List (String × Logfile T) →
    List (String × List String) × List String × Bool
  | 0, _ => ([], [], false)
  | fuel + 1, s =>
    match nextEntry parse s with
    | (.error _, closed) => ([], closed, true)
    | (.ok (pe, s2), closed) =>
      let rest := runMerge parse fuel s2
      (pe :: rest.1, closed ++ rest.2.1, rest.2.2)

/-- Exit behaviour of the merge loop of `main`: exit code 0 when the loop
reaches `EOFError` (all sources exhausted) within `fuel` steps. -/
def mainLoopExit {T : Type} [LinearOrder T] (parse : String → Option T)
    (fuel : Nat) (s : List (String × Logfile T)) : Option Nat :=
  if (runMerge parse fuel s).2.2 then some 0 else none

/-- Repeatedly extract entries from a single reader (used to state what a
source contributes over a whole run). -/
def drain {T : Type} (parse : String → Option T) :
    Nat → Logfile T → List (List String)
  | 0, _ => []
  | fuel + 1, lf =>
    match Logfile.entry parse lf with
    | .error _ => []
    | .ok (e, lf2) => e :: drain parse fuel lf2

/-! ## Invariants -/

/-- The read-ahead invariant of a reader (spec §3, SourceState): when not
exhausted, the buffered timestamp is set and is the parse of the buffered
first line. -/
def ReadAhead {T : Type} (parse : String → Option T) (lf : Logfile T) : Prop :=
  lf.eof = false → ∃ t, lf.ts = some t ∧ parse lf.line = some t

/-- A reader over an internally ordered source: the read-ahead invariant
plus sortedness of the buffered timestamp followed by all timestamps still
in the stream. -/
def SrcOk {T : Type} [LinearOrder T] (parse : String → Option T) (lf : Logfile T) : Prop :=
  lf.eof = false → ∃ t, lf.ts = some t ∧ parse lf.line = some t ∧
    List.Sorted (· ≤ ·) (t :: lf.stream.filterMap parse)

/-- All lines held by a reader are non-empty (`readline` only returns `''`
at EOF, and the buffered line is either unread yet or came from `readline`). -/
def NoEmptyLines {T : Type} (lf : Logfile T) : Prop :=
  (lf.eof = false → lf.line ≠ "") ∧ ∀ l ∈ lf.stream, l ≠ ""

/-- Timestamp of an emitted entry: the parse of its first line. -/
def entryTs {T : Type} (parse : String → Option T) (e : List String) : Option T :=
  match e with
  | [] => none
  | l :: _ => parse l

/-- A line is a continuation line when the detector does not recognise a
timestamp on it. -/
def contLine {T : Type} (parse : String → Option T) (l : String) : Bool :=
  (parse l).isNone

/-! ## Lemmas about the reader -/

theorem dropWhile_head_false {α : Type} (p : α → Bool) :
    ∀ (l : List α) (x : α) (xs : List α), l.dropWhile p = x :: xs → p x = false := by
  intro l
  induction l with
  | nil => intro x xs h; simp [List.dropWhile] at h
  | cons c cs ih =>
    intro x xs h
    rw [List.dropWhile_cons] at h
    by_cases hc : p c = true
    · rw [if_pos hc] at h
      exact ih x xs h
    · rw [if_neg hc] at h
      cases h
      simpa using hc

theorem mem_of_mem_takeWhile {α : Type} (p : α → Bool) (s : List α) (x : α)
    (h : x ∈ s.takeWhile p) : x ∈ s := by
  rw [← List.takeWhile_append_dropWhile p s]
  exact List.mem_append_left _ h

theorem mem_of_dropWhile_cons {α : Type} (p : α → Bool) (s : List α) (l : α)
    (rest : List α) (h : s.dropWhile p = l :: rest) (x : α) (hx : x ∈ l :: rest) :
    x ∈ s := by
  rw [← List.takeWhile_append_dropWhile p s, h]
  exact List.mem_append_right _ hx

theorem takeWhile_eq_self_of_dropWhile_nil {α : Type} (p : α → Bool) (s : List α)
    (h : s.dropWhile p = []) : s.takeWhile p = s := by
  conv_rhs => rw [← List.takeWhile_append_dropWhile p s]
  rw [h, List.append_nil]

/-- Characterisation of the `_advance` loop: the accumulated continuation
lines are the maximal all-continuation block at the head of the stream, and
the loop stops at the first timestamped line, if any. -/
theorem advLoop_eq {T : Type} (parse : String → Option T) :
    ∀ (stream acc : List String),
      advLoop parse stream acc =
        (acc ++ stream.takeWhile (contLine parse),
         (stream.dropWhile (contLine parse)).tail,
         match stream.dropWhile (contLine parse) with
         | [] => none
         | l :: _ => (parse l).map (fun t => (t, l))) := by
  intro stream
  induction stream with
  | nil => intro acc; simp [advLoop]
  | cons l ls ih =>
    intro acc
    rw [advLoop]
    cases hp : parse l with
    | some t =>
      simp [List.takeWhile_cons, List.dropWhile_cons, contLine, hp]
    | none =>
      rw [ih]
      simp [List.takeWhile_cons, List.dropWhile_cons, contLine, hp]

theorem parse_of_dropWhile_cons {T : Type} (parse : String → Option T)
    (s : List String) (l : String) (rest : List String)
    (h : s.dropWhile (contLine parse) = l :: rest) : ∃ t, parse l = some t := by
  have hf := dropWhile_head_false (contLine parse) s l rest h
  unfold contLine at hf
  cases hp : parse l with
  | none => rw [hp] at hf; simp at hf
  | some t => exact ⟨t, rfl⟩

/-- `_advance` when the rest of the stream is all continuation lines: the
whole stream is accumulated and the reader transitions to exhausted. -/
theorem advance_eq_nil {T : Type} (parse : String → Option T) (lf : Logfile T)
    (h : lf.stream.dropWhile (contLine parse) = []) :
    Logfile.advance parse lf =
      (lf.line :: lf.stream.takeWhile (contLine parse),
       { lf with stream := [], eof := true }) := by
  unfold Logfile.advance
  rw [advLoop_eq, h]
  simp

/-- `_advance` when the stream still contains a timestamped line: the block
of continuation lines before it is accumulated and that line becomes the new
buffered line, with its timestamp. -/
theorem advance_eq_cons {T : Type} (parse : String → Option T) (lf : Logfile T)
    (l : String) (rest : List String) (t : T)
    (h : lf.stream.dropWhile (contLine parse) = l :: rest) (hp : parse l = some t) :
    Logfile.advance parse lf =
      (lf.line :: lf.stream.takeWhile (contLine parse),
       { lf with stream := rest, ts := some t, line := l }) := by
  unfold Logfile.advance
  rw [advLoop_eq, h]
  simp [hp]

theorem filterMap_takeWhile_contLine {T : Type} (parse : String → Option T)
    (s : List String) : (s.takeWhile (contLine parse)).filterMap parse = [] := by
  rw [List.filterMap_eq_nil_iff]
  intro a ha
  have hf := List.mem_takeWhile_imp ha
  unfold contLine at hf
  exact Option.isNone_iff_eq_none.1 hf

theorem filterMap_eq_of_dropWhile_cons {T : Type} (parse : String → Option T)
    (s : List String) (l : String) (rest : List String) (t : T)
    (h : s.dropWhile (contLine parse) = l :: rest) (hp : parse l = some t) :
    s.filterMap parse = t :: rest.filterMap parse := by
  conv_lhs => rw [← List.takeWhile_append_dropWhile (contLine parse) s]
  rw [List.filterMap_append, filterMap_takeWhile_contLine, h, List.nil_append,
    List.filterMap_cons, hp]

theorem filterMap_eq_nil_of_dropWhile_nil {T : Type} (parse : String → Option T)
    (s : List String) (h : s.dropWhile (contLine parse) = []) :
    s.filterMap parse = [] := by
  conv_lhs => rw [← List.takeWhile_append_dropWhile (contLine parse) s]
  rw [List.filterMap_append, filterMap_takeWhile_contLine, h, List.filterMap_nil,
    List.nil_append]

/-- The read-ahead invariant is (re-)established by every `_advance` call. -/
theorem advance_ReadAhead {T : Type} (parse : String → Option T) (lf : Logfile T) :
    ReadAhead parse (Logfile.advance parse lf).2 := by
  cases hdw : lf.stream.dropWhile (contLine parse) with
  | nil =>
    rw [advance_eq_nil parse lf hdw]
    intro h
    simp at h
  | cons l rest =>
    obtain ⟨t, hp⟩ := parse_of_dropWhile_cons parse _ _ _ hdw
    rw [advance_eq_cons parse lf l rest t hdw hp]
    intro _
    exact ⟨t, rfl, hp⟩

/-- The read-ahead invariant holds right after construction. -/
theorem init_ReadAhead {T : Type} (parse : String → Option T) (lines : List String) :
    ReadAhead parse (Logfile.init parse lines) :=
  advance_ReadAhead parse _

/-- Construction on a stream with no timestamped line at all: the reader
starts exhausted. -/
theorem init_eof_of_no_timestamp {T : Type} (parse : String → Option T)
    (lines : List String) (h : ∀ l ∈ lines, parse l = none) :
    (Logfile.init parse lines).eof = true := by
  have hdw : lines.dropWhile (contLine parse) = [] := by
    rw [List.dropWhile_eq_nil_iff]
    intro x hx
    unfold contLine
    rw [h x hx]
    rfl
  unfold Logfile.init
  rw [advance_eq_nil parse _ hdw]

theorem dropWhile_append_of_all {α : Type} (p : α → Bool) :
    ∀ (pre : List α) (l : α) (post : List α), (∀ x ∈ pre, p x = true) → p l = false →
      (pre ++ l :: post).dropWhile p = l :: post := by
  intro pre
  induction pre with
  | nil =>
    intro l post _ hl
    rw [List.nil_append, List.dropWhile_cons, if_neg (by simp [hl])]
  | cons c cs ih =>
    intro l post hall hl
    rw [List.cons_append, List.dropWhile_cons, if_pos (hall c (by simp))]
    exact ih l post (fun x hx => hall x (by simp [hx])) hl

/-- Construction on a stream whose first timestamped line is `l`: the leading
block `pre` is read and discarded, `l` becomes the buffered line with its
timestamp, and exactly `post` is left in the stream. -/
theorem init_eq_of_split {T : Type} (parse : String → Option T)
    (pre : List String) (l : String) (post : List String) (t : T)
    (hpre : ∀ x ∈ pre, parse x = none) (hl : parse l = some t) :
    Logfile.init parse (pre ++ l :: post) =
      { stream := post, eof := false, ts := some t, line := l } := by
  have hdw : (pre ++ l :: post).dropWhile (contLine parse) = l :: post := by
    apply dropWhile_append_of_all
    · intro x hx
      unfold contLine
      rw [hpre x hx]
      rfl
    · unfold contLine
      rw [hl]
      rfl
  unfold Logfile.init
  rw [advance_eq_cons parse _ l post t hdw hl]

theorem drain_eof {T : Type} (parse : String → Option T) (n : Nat) (lf : Logfile T)
    (h : lf.eof = true) : drain parse n lf = [] := by
  cases n with
  | zero => rfl
  | succ m =>
    rw [drain]
    unfold Logfile.entry
    rw [h]
    simp

/-- Fully draining a non-exhausted reader yields exactly its buffered line
followed by every line still in its stream. -/
theorem drain_flatten {T : Type} (parse : String → Option T) :
    ∀ (fuel : Nat) (lf : Logfile T), lf.eof = false → lf.stream.length < fuel →
      (drain parse fuel lf).flatten = lf.line :: lf.stream := by
  intro fuel
  induction fuel with
  | zero => intro lf _ hl; omega
  | succ n ih =>
    intro lf he hl
    rw [drain]
    unfold Logfile.entry
    rw [he]
    simp only [Bool.false_eq_true, if_false]
    cases hdw : lf.stream.dropWhile (contLine parse) with
    | nil =>
      rw [advance_eq_nil parse lf hdw]
      simp only [List.flatten_cons]
      rw [drain_eof parse n _ (by simp), List.flatten_nil, List.append_nil,
        takeWhile_eq_self_of_dropWhile_nil _ _ hdw]
    | cons l rest =>
      obtain ⟨t, hp⟩ := parse_of_dropWhile_cons parse _ _ _ hdw
      rw [advance_eq_cons parse lf l rest t hdw hp]
      simp only [List.flatten_cons]
      have hstream : lf.stream = lf.stream.takeWhile (contLine parse) ++ l :: rest := by
        conv_lhs => rw [← List.takeWhile_append_dropWhile (contLine parse) lf.stream]
        rw [hdw]
      have hlen : rest.length < n := by
        have hlen2 := congrArg List.length hstream
        simp only [List.length_append, List.length_cons] at hlen2
        omega
      rw [ih _ (by simp [he]) hlen]
      rw [List.cons_append, ← hstream]

/-! ## Lemmas about the scan loop of next_entry -/

/-- Each scan step either keeps the accumulator (exhausted source, unset
timestamp, or strictly larger timestamp) or replaces it with the current
source and its timestamp. -/
theorem scanStep_cases {T : Type} [LinearOrder T] (acc : Option (String × T))
    (it : String × Logfile T) :
    scanStep acc it = acc ∨
    ∃ t, it.2.eof = false ∧ it.2.ts = some t ∧ scanStep acc it = some (it.1, t) := by
  by_cases he : it.2.eof = true
  · exact Or.inl (by simp [scanStep, he])
  · rw [Bool.not_eq_true] at he
    cases hts : it.2.ts with
    | none => exact Or.inl (by simp [scanStep, he, hts])
    | some t =>
      cases acc with
      | none => exact Or.inr ⟨t, he, rfl, by simp [scanStep, he, hts]⟩
      | some b =>
        rcases b with ⟨bp, bt⟩
        by_cases hle : t ≤ bt
        · exact Or.inr ⟨t, he, rfl, by simp [scanStep, he, hts, hle]⟩
        · exact Or.inl (by simp [scanStep, he, hts, hle])

/-- The replacement step happens exactly when the source is live and its
timestamp is `≤` the current best (or the accumulator is still unset). -/
theorem scanStep_take {T : Type} [LinearOrder T] (acc : Option (String × T))
    (it : String × Logfile T) (t : T) (he : it.2.eof = false) (hts : it.2.ts = some t)
    (hle : ∀ bp bt, acc = some (bp, bt) → t ≤ bt) :
    scanStep acc it = some (it.1, t) := by
  cases acc with
  | none => simp [scanStep, he, hts]
  | some b =>
    rcases b with ⟨bp, bt⟩
    simp [scanStep, he, hts, hle bp bt rfl]

theorem scanStep_keep {T : Type} [LinearOrder T] (bp : String) (bt : T)
    (it : String × Logfile T)
    (h : it.2.eof = false → ∀ w, it.2.ts = some w → ¬w ≤ bt) :
    scanStep (some (bp, bt)) it = some (bp, bt) := by
  by_cases he : it.2.eof = true
  · simp [scanStep, he]
  · rw [Bool.not_eq_true] at he
    cases hts : it.2.ts with
    | none => simp [scanStep, he, hts]
    | some w => simp [scanStep, he, hts, h he w hts]

/-- Starting from a set best, one scan step keeps a best that is `≤` it. -/
theorem scanStep_bound {T : Type} [LinearOrder T] (bp : String) (bt : T)
    (it : String × Logfile T) :
    ∃ bp2 bt2, scanStep (some (bp, bt)) it = some (bp2, bt2) ∧ bt2 ≤ bt := by
  by_cases he : it.2.eof = true
  · exact ⟨bp, bt, by simp [scanStep, he], le_refl bt⟩
  · rw [Bool.not_eq_true] at he
    cases hts : it.2.ts with
    | none => exact ⟨bp, bt, by simp [scanStep, he, hts], le_refl bt⟩
    | some t =>
      by_cases hle : t ≤ bt
      · exact ⟨it.1, t, by simp [scanStep, he, hts, hle], hle⟩
      · exact ⟨bp, bt, by simp [scanStep, he, hts, hle], le_refl bt⟩

theorem scan_from_some_le {T : Type} [LinearOrder T] :
    ∀ (s : List (String × Logfile T)) (bp : String) (bt : T),
      ∃ q w, s.foldl scanStep (some (bp, bt)) = some (q, w) ∧ w ≤ bt := by
  intro s
  induction s with
  | nil => intro bp bt; exact ⟨bp, bt, rfl, le_refl bt⟩
  | cons it rest ih =>
    intro bp bt
    obtain ⟨bp2, bt2, hs, hle⟩ := scanStep_bound bp bt it
    rw [List.foldl_cons, hs]
    obtain ⟨q, w, hq, hw⟩ := ih bp2 bt2
    exact ⟨q, w, hq, le_trans hw hle⟩

/-- A live source with a set timestamp forces the scan accumulator to be set. -/
theorem scanStep_live_isSome {T : Type} [LinearOrder T] (acc : Option (String × T))
    (it : String × Logfile T) (t : T) (he : it.2.eof = false) (hts : it.2.ts = some t) :
    ∃ bp2 bt2, scanStep acc it = some (bp2, bt2) := by
  cases acc with
  | none => exact ⟨it.1, t, by simp [scanStep, he, hts]⟩
  | some b =>
    rcases b with ⟨bp, bt⟩
    by_cases hle : t ≤ bt
    · exact ⟨it.1, t, by simp [scanStep, he, hts, hle]⟩
    · exact ⟨bp, bt, by simp [scanStep, he, hts, hle]⟩

theorem scan_isSome_of_live {T : Type} [LinearOrder T] :
    ∀ (s : List (String × Logfile T)) (acc : Option (String × T)),
      (∃ it ∈ s, it.2.eof = false ∧ it.2.ts.isSome) → (s.foldl scanStep acc).isSome := by
  intro s
  induction s with
  | nil => intro acc h; simp at h
  | cons it0 rest ih =>
    intro acc h
    rcases h with ⟨it, hit, he, hts⟩
    rcases List.mem_cons.1 hit with h0 | h0
    · subst h0
      obtain ⟨t, ht⟩ := Option.isSome_iff_exists.1 hts
      obtain ⟨bp2, bt2, hs⟩ := scanStep_live_isSome acc it t he ht
      rw [List.foldl_cons, hs]
      obtain ⟨q, w, hq, _⟩ := scan_from_some_le rest bp2 bt2
      rw [hq]
      rfl
    · exact ih _ ⟨it, h0, he, hts⟩

theorem scan_min {T : Type} [LinearOrder T] :
    ∀ (s : List (String × Logfile T)) (acc : Option (String × T)) (q : String) (w : T),
      s.foldl scanStep acc = some (q, w) →
      ∀ it ∈ s, it.2.eof = false → ∀ u, it.2.ts = some u → w ≤ u := by
  intro s
  induction s with
  | nil => intro acc q w _ it hit; simp at hit
  | cons it0 rest ih =>
    intro acc q w hfold it hit he u hts
    rcases List.mem_cons.1 hit with h0 | h0
    · subst h0
      have hstep : ∃ bp2 bt2, scanStep acc it = some (bp2, bt2) ∧ bt2 ≤ u := by
        cases acc with
        | none =>
          exact ⟨it.1, u, scanStep_take none it u he hts (by intro bp bt h; cases h), le_refl u⟩
        | some b =>
          rcases b with ⟨bp, bt⟩
          by_cases hle : u ≤ bt
          · refine ⟨it.1, u, scanStep_take _ it u he hts ?_, le_refl u⟩
            intro bp2 bt2 h2
            cases h2
            exact hle
          · refine ⟨bp, bt, scanStep_keep bp bt it ?_, le_of_not_le hle⟩
            intro _ w2 hw2
            rw [hts] at hw2
            cases hw2
            exact hle
      obtain ⟨bp2, bt2, hs, hle⟩ := hstep
      rw [List.foldl_cons, hs] at hfold
      obtain ⟨q2, w2, hq2, hw2⟩ := scan_from_some_le rest bp2 bt2
      rw [hq2] at hfold
      cases hfold
      exact le_trans hw2 hle
    · exact ih (scanStep acc it0) q w hfold it h0 he u hts

theorem scan_mem {T : Type} [LinearOrder T] :
    ∀ (s : List (String × Logfile T)) (acc : Option (String × T)) (q : String) (w : T),
      s.foldl scanStep acc = some (q, w) →
      acc = some (q, w) ∨ ∃ lf, (q, lf) ∈ s ∧ lf.eof = false ∧ lf.ts = some w := by
  intro s
  induction s with
  | nil => intro acc q w h; exact Or.inl h
  | cons it0 rest ih =>
    intro acc q w hfold
    rw [List.foldl_cons] at hfold
    rcases ih (scanStep acc it0) q w hfold with hacc | ⟨lf, hlf, he, hts⟩
    · rcases scanStep_cases acc it0 with hs | ⟨t, he0, hts0, hs⟩
      · exact Or.inl (hs.symm.trans hacc)
      · rw [hacc] at hs
        cases hs
        exact Or.inr ⟨it0.2, by simp, he0, hts0⟩
    · exact Or.inr ⟨lf, List.mem_cons_of_mem it0 hlf, he, hts⟩

theorem scan_last {T : Type} [LinearOrder T] :
    ∀ (v : List (String × Logfile T)) (b : String) (t : T),
      (∀ it ∈ v, it.2.eof = false → ∀ w, it.2.ts = some w → t < w) →
      v.foldl scanStep (some (b, t)) = some (b, t) := by
  intro v
  induction v with
  | nil => intro b t _; rfl
  | cons it rest ih =>
    intro b t h
    have hstep : scanStep (some (b, t)) it = some (b, t) := by
      apply scanStep_keep
      intro he w hts hle
      exact absurd hle (not_le_of_lt (h it (by simp) he w hts))
    rw [List.foldl_cons, hstep]
    exact ih b t (fun x hx => h x (List.mem_cons_of_mem it hx))

/-! ## Association-list lemmas (python dict behaviour) -/

theorem lookup_of_mem_nodup {V : Type} :
    ∀ (l : List (String × V)), (l.map Prod.fst).Nodup →
      ∀ (p : String) (v : V), (p, v) ∈ l → l.lookup p = some v := by
  intro l
  induction l with
  | nil => intro _ p v h; simp at h
  | cons kv rest ih =>
    intro hn p v h
    rcases kv with ⟨k, w⟩
    rw [List.map_cons, List.nodup_cons] at hn
    rcases List.mem_cons.1 h with h0 | h0
    · cases h0
      simp [List.lookup]
    · have hpk : p ≠ k := by
        intro hpk
        subst hpk
        exact hn.1 (List.mem_map.2 ⟨(p, v), h0, rfl⟩)
      have hb : (p == k) = false := by simp [hpk]
      simp only [List.lookup, hb]
      exact ih hn.2 p v h0

theorem mem_of_lookup {V : Type} :
    ∀ (l : List (String × V)) (p : String) (v : V), l.lookup p = some v → (p, v) ∈ l := by
  intro l
  induction l with
  | nil => intro p v h; simp [List.lookup] at h
  | cons kv rest ih =>
    intro p v h
    rcases kv with ⟨k, w⟩
    by_cases hpk : p = k
    · subst hpk
      simp only [List.lookup, beq_self_eq_true] at h
      cases h
      simp
    · have hb : (p == k) = false := by simp [hpk]
      simp only [List.lookup, hb] at h
      exact List.mem_cons_of_mem _ (ih p v h)

theorem map_fst_setLog {T : Type} (p : String) (lf : Logfile T)
    (s : List (String × Logfile T)) :
    (setLog p lf s).map Prod.fst = s.map Prod.fst := by
  unfold setLog
  rw [List.map_map]
  apply List.map_congr_left
  intro a _
  by_cases h : a.1 = p <;> simp [h]

theorem mem_setLog {T : Type} (p : String) (lf : Logfile T)
    (s : List (String × Logfile T)) (q : String) (lg : Logfile T)
    (h : (q, lg) ∈ setLog p lf s) :
    (q = p ∧ lg = lf) ∨ ((q, lg) ∈ s ∧ q ≠ p) := by
  unfold setLog at h
  obtain ⟨a, ha, hEq⟩ := List.mem_map.1 h
  by_cases hap : a.1 = p
  · rw [if_pos hap] at hEq
    cases hEq
    exact Or.inl ⟨rfl, rfl⟩
  · rw [if_neg hap] at hEq
    cases hEq
    exact Or.inr ⟨ha, hap⟩

theorem keys_filter_nodup {T : Type} (s : List (String × Logfile T))
    (p : String × Logfile T → Bool) (hn : (s.map Prod.fst).Nodup) :
    ((s.filter p).map Prod.fst).Nodup :=
  hn.sublist (List.Sublist.map Prod.fst s.filter_sublist)

theorem mem_keys_dictInsert {V : Type} (k : String) (v : V) :
    ∀ (d : List (String × V)) (q : String), q ∈ (dictInsert k v d).map Prod.fst →
      q = k ∨ q ∈ d.map Prod.fst := by
  intro d
  induction d with
  | nil => intro q h; simpa [dictInsert] using h
  | cons kv rest ih =>
    intro q h
    rcases kv with ⟨k0, v0⟩
    rw [dictInsert] at h
    by_cases hk : k0 = k
    · rw [if_pos hk] at h
      rcases (by simpa using h : q = k0 ∨ q ∈ rest.map Prod.fst) with h0 | h0
      · exact Or.inr (by simp [h0])
      · exact Or.inr (by simp [h0])
    · rw [if_neg hk] at h
      rcases (by simpa using h : q = k0 ∨ q ∈ (dictInsert k v rest).map Prod.fst) with h0 | h0
      · exact Or.inr (by simp [h0])
      · rcases ih q h0 with h1 | h1
        · exact Or.inl h1
        · exact Or.inr (by simp [h1])

theorem keys_dictInsert_nodup {V : Type} (k : String) (v : V) :
    ∀ (d : List (String × V)), (d.map Prod.fst).Nodup →
      ((dictInsert k v d).map Prod.fst).Nodup := by
  intro d
  induction d with
  | nil => intro _; simp [dictInsert]
  | cons kv rest ih =>
    intro hn
    rcases kv with ⟨k0, v0⟩
    rw [List.map_cons, List.nodup_cons] at hn
    rw [dictInsert]
    by_cases hk : k0 = k
    · rw [if_pos hk, List.map_cons, List.nodup_cons]
      exact ⟨hn.1, hn.2⟩
    · rw [if_neg hk, List.map_cons, List.nodup_cons]
      refine ⟨?_, ih hn.2⟩
      intro hmem
      rcases mem_keys_dictInsert k v rest k0 hmem with h1 | h1
      · exact hk h1
      · exact hn.1 h1

theorem mem_dictInsert_value {V : Type} (k : String) (v : V) :
    ∀ (d : List (String × V)) (q : String) (w : V), (q, w) ∈ dictInsert k v d →
      w = v ∨ (q, w) ∈ d := by
  intro d
  induction d with
  | nil => intro q w h; simp [dictInsert] at h; exact Or.inl h.2
  | cons kv rest ih =>
    intro q w h
    rcases kv with ⟨k0, v0⟩
    rw [dictInsert] at h
    by_cases hk : k0 = k
    · rw [if_pos hk] at h
      rcases List.mem_cons.1 h with h0 | h0
      · cases h0; exact Or.inl rfl
      · exact Or.inr (List.mem_cons_of_mem _ h0)
    · rw [if_neg hk] at h
      rcases List.mem_cons.1 h with h0 | h0
      · cases h0; exact Or.inr (by simp)
      · rcases ih q w h0 with h1 | h1
        · exact Or.inl h1
        · exact Or.inr (List.mem_cons_of_mem _ h1)

theorem initLogSet_aux_keys_nodup {T : Type} (parse : String → Option T) :
    ∀ (files : List (String × List String)) (acc : List (String × Logfile T)),
      (acc.map Prod.fst).Nodup →
      ((files.foldl (fun a it => dictInsert it.1 (Logfile.init parse it.2) a) acc).map
        Prod.fst).Nodup := by
  intro files
  induction files with
  | nil => intro acc h; exact h
  | cons f rest ih =>
    intro acc h
    exact ih _ (keys_dictInsert_nodup f.1 _ acc h)

/-- The pathname keys of a freshly constructed merge set are distinct
(python dict keys are unique). -/
theorem initLogSet_keys_nodup {T : Type} (parse : String → Option T)
    (files : List (String × List String)) :
    ((initLogSet parse files).map Prod.fst).Nodup :=
  initLogSet_aux_keys_nodup parse files [] (by simp)

theorem initLogSet_aux_mem {T : Type} (parse : String → Option T) :
    ∀ (files : List (String × List String)) (acc : List (String × Logfile T))
      (q : String) (lg : Logfile T),
      (q, lg) ∈ files.foldl (fun a it => dictInsert it.1 (Logfile.init parse it.2) a) acc →
      (q, lg) ∈ acc ∨ ∃ f ∈ files, lg = Logfile.init parse f.2 := by
  intro files
  induction files with
  | nil => intro acc q lg h; exact Or.inl h
  | cons f rest ih =>
    intro acc q lg h
    rcases ih _ q lg h with h0 | ⟨g, hg, hEq⟩
    · rcases mem_dictInsert_value f.1 _ acc q lg h0 with h1 | h1
      · exact Or.inr ⟨f, by simp, h1⟩
      · exact Or.inl h1
    · exact Or.inr ⟨g, List.mem_cons_of_mem f hg, hEq⟩

/-- Every reader in a freshly constructed merge set is the construction of
one of the supplied files. -/
theorem initLogSet_mem {T : Type} (parse : String → Option T)
    (files : List (String × List String)) (q : String) (lg : Logfile T)
    (h : (q, lg) ∈ initLogSet parse files) : ∃ f ∈ files, lg = Logfile.init parse f.2 := by
  rcases initLogSet_aux_mem parse files [] q lg h with h0 | h0
  · simp at h0
  · exact h0

/-! ## Characterisation of next_entry -/

/-- Well-formed merge set: distinct pathname keys (guaranteed by the python
dict) and the read-ahead invariant for every reader (established at
construction). -/
def SetWS {T : Type} (parse : String → Option T) (s : List (String × Logfile T)) : Prop :=
  (s.map Prod.fst).Nodup ∧ ∀ it ∈ s, ReadAhead parse it.2

/-- The closed-pathnames component of `next_entry` is always exactly the
sources detected exhausted during the scan (closing happens at exhaustion
detection, in every branch, and only then). -/
theorem nextEntry_closed {T : Type} [LinearOrder T] (parse : String → Option T)
    (s : List (String × Logfile T)) :
    (nextEntry parse s).2 = (s.filter (fun it => it.2.eof)).map Prod.fst := by
  unfold nextEntry
  by_cases hse : s.isEmpty = true
  · have hnil : s = [] := List.isEmpty_iff.1 hse
    subst hnil
    simp
  · rw [Bool.not_eq_true] at hse
    simp only [hse, Bool.false_eq_true, if_false]
    split
    · rfl
    · split
      · rfl
      · split
        · rfl
        · split
          · rfl
          · rfl

/-- On a well-formed set with at least one live source, `next_entry`
succeeds: it picks a live source `(p, lf)` whose timestamp `t` is minimal
among all live sources, emits `lf`'s entry, replaces `lf` by its advanced
state among the surviving (non-exhausted) sources, and closes exactly the
exhausted ones. -/
theorem nextEntry_ok {T : Type} [LinearOrder T] (parse : String → Option T)
    (s : List (String × Logfile T)) (hws : SetWS parse s)
    (hne : ∃ it ∈ s, it.2.eof = false) :
    ∃ p lf t, (p, lf) ∈ s ∧ lf.eof = false ∧ lf.ts = some t ∧
      (∀ it ∈ s, it.2.eof = false → ∀ u, it.2.ts = some u → t ≤ u) ∧
      nextEntry parse s =
        (.ok ((p, (Logfile.advance parse lf).1),
              setLog p (Logfile.advance parse lf).2 (s.filter (fun it => !it.2.eof))),
         (s.filter (fun it => it.2.eof)).map Prod.fst) := by
  obtain ⟨w, hw, hweof⟩ := hne
  have hwts : w.2.ts.isSome := by
    obtain ⟨t, ht, _⟩ := hws.2 w hw hweof
    rw [ht]
    rfl
  have hbest : (s.foldl scanStep none).isSome :=
    scan_isSome_of_live s none ⟨w, hw, hweof, hwts⟩
  obtain ⟨pt, hpt⟩ := Option.isSome_iff_exists.1 hbest
  rcases pt with ⟨p, t⟩
  rcases scan_mem s none p t hpt with hc | ⟨lf, hlf, he, hts⟩
  · cases hc
  refine ⟨p, lf, t, hlf, he, hts, scan_min s none p t hpt, ?_⟩
  have hsne : s.isEmpty = false := by
    cases s
    · simp at hw
    · rfl
  have hrem : (p, lf) ∈ s.filter (fun it => !it.2.eof) := by
    rw [List.mem_filter]
    exact ⟨hlf, by simp [he]⟩
  have hremne : (s.filter (fun it => !it.2.eof)).isEmpty = false := by
    cases hfe : s.filter (fun it => !it.2.eof)
    · rw [hfe] at hrem
      simp at hrem
    · rfl
  have hlkp : (s.filter (fun it => !it.2.eof)).lookup p = some lf :=
    lookup_of_mem_nodup _ (keys_filter_nodup s _ hws.1) p lf hrem
  unfold nextEntry
  simp only [hsne, Bool.false_eq_true, if_false, hremne, hpt, hlkp, he]

/-! ## Advance preserves the per-source invariants -/

theorem advance_fst {T : Type} (parse : String → Option T) (lf : Logfile T) :
    (Logfile.advance parse lf).1 = lf.line :: lf.stream.takeWhile (contLine parse) := by
  cases hdw : lf.stream.dropWhile (contLine parse) with
  | nil => rw [advance_eq_nil parse lf hdw]
  | cons l rest =>
    obtain ⟨t, hp⟩ := parse_of_dropWhile_cons parse _ _ _ hdw
    rw [advance_eq_cons parse lf l rest t hdw hp]

/-- Every line of the accumulated entry after the first is a continuation
line (its parse is `none`). -/
theorem advance_fst_tail_cont {T : Type} (parse : String → Option T) (lf : Logfile T) :
    ∀ l ∈ ((Logfile.advance parse lf).1).tail, parse l = none := by
  rw [advance_fst]
  intro l hl
  have hf := List.mem_takeWhile_imp hl
  unfold contLine at hf
  exact Option.isNone_iff_eq_none.1 hf

/-- Advancing a reader over an internally sorted source keeps it internally
sorted, and the new buffered timestamp (if any) is `≥` the one just emitted. -/
theorem advance_SrcOk {T : Type} [LinearOrder T] (parse : String → Option T)
    (lf : Logfile T) (t : T) (hsort : List.Sorted (· ≤ ·) (t :: lf.stream.filterMap parse)) :
    SrcOk parse (Logfile.advance parse lf).2 ∧
    (∀ u, (Logfile.advance parse lf).2.ts = some u →
      (Logfile.advance parse lf).2.eof = false → t ≤ u) := by
  cases hdw : lf.stream.dropWhile (contLine parse) with
  | nil =>
    rw [advance_eq_nil parse lf hdw]
    constructor
    · intro he
      simp at he
    · intro u _ he
      simp at he
  | cons l rest =>
    obtain ⟨t2, hp⟩ := parse_of_dropWhile_cons parse _ _ _ hdw
    have hfm := filterMap_eq_of_dropWhile_cons parse lf.stream l rest t2 hdw hp
    rw [advance_eq_cons parse lf l rest t2 hdw hp]
    have hle : t ≤ t2 := by
      refine List.rel_of_sorted_cons hsort t2 ?_
      rw [hfm]
      exact List.mem_cons_self t2 _
    constructor
    · intro _
      refine ⟨t2, rfl, hp, ?_⟩
      rw [hfm] at hsort
      exact hsort.of_cons
    · intro u hu _
      cases hu
      exact hle

/-- Advancing a reader whose lines are all non-empty yields an entry of
non-empty lines and preserves the property. -/
theorem advance_NE {T : Type} (parse : String → Option T) (lf : Logfile T)
    (h : NoEmptyLines lf) (he : lf.eof = false) :
    (∀ l ∈ (Logfile.advance parse lf).1, l ≠ "") ∧
    NoEmptyLines (Logfile.advance parse lf).2 := by
  constructor
  · rw [advance_fst]
    intro l hl
    rcases List.mem_cons.1 hl with h0 | h0
    · subst h0
      exact h.1 he
    · exact h.2 l (mem_of_mem_takeWhile _ _ l h0)
  · cases hdw : lf.stream.dropWhile (contLine parse) with
    | nil =>
      rw [advance_eq_nil parse lf hdw]
      constructor
      · intro he2
        simp at he2
      · intro l hl
        simp at hl
    | cons l rest =>
      obtain ⟨t, hp⟩ := parse_of_dropWhile_cons parse _ _ _ hdw
      rw [advance_eq_cons parse lf l rest t hdw hp]
      constructor
      · intro _
        exact h.2 l (mem_of_dropWhile_cons _ _ _ _ hdw l (List.mem_cons_self l rest))
      · intro x hx
        exact h.2 x (mem_of_dropWhile_cons _ _ _ _ hdw x (List.mem_cons_of_mem l hx))

/-- A reader constructed from non-empty input lines has only non-empty
lines (python readline returns a non-empty string except at EOF). -/
theorem init_NE {T : Type} (parse : String → Option T) (lines : List String)
    (h : ∀ l ∈ lines, l ≠ "") : NoEmptyLines (Logfile.init parse lines) := by
  unfold Logfile.init
  have hbase : ∀ l ∈ ({ stream := lines, eof := false, ts := none, line := "" } :
      Logfile T).stream, l ≠ "" := h
  cases hdw : lines.dropWhile (contLine parse) with
  | nil =>
    rw [advance_eq_nil parse _ hdw]
    constructor
    · intro he2
      simp at he2
    · intro l hl
      simp at hl
  | cons l rest =>
    obtain ⟨t, hp⟩ := parse_of_dropWhile_cons parse _ _ _ hdw
    rw [advance_eq_cons parse _ l rest t hdw hp]
    constructor
    · intro _
      exact h l (mem_of_dropWhile_cons _ _ _ _ hdw l (List.mem_cons_self l rest))
    · intro x hx
      exact h x (mem_of_dropWhile_cons _ _ _ _ hdw x (List.mem_cons_of_mem l hx))

/-- A reader constructed from a source whose recognised timestamps are
non-decreasing is internally sorted. -/
theorem init_SrcOk {T : Type} [LinearOrder T] (parse : String → Option T)
    (lines : List String) (h : List.Sorted (· ≤ ·) (lines.filterMap parse)) :
    SrcOk parse (Logfile.init parse lines) := by
  unfold Logfile.init
  cases hdw : lines.dropWhile (contLine parse) with
  | nil =>
    rw [advance_eq_nil parse _ hdw]
    intro he
    simp at he
  | cons l rest =>
    obtain ⟨t, hp⟩ := parse_of_dropWhile_cons parse _ _ _ hdw
    have hfm := filterMap_eq_of_dropWhile_cons parse lines l rest t hdw hp
    rw [advance_eq_cons parse _ l rest t hdw hp]
    intro _
    refine ⟨t, rfl, hp, ?_⟩
    rw [hfm] at h
    exact h

/-! ## Run-level lemmas -/

/-- When every source is exhausted, `next_entry` closes them all and raises
`EOFError`. -/
theorem nextEntry_all_eof {T : Type} [LinearOrder T] (parse : String → Option T)
    (s : List (String × Logfile T)) (hall : ∀ it ∈ s, it.2.eof = true) :
    nextEntry parse s = (.error (), (s.filter (fun it => it.2.eof)).map Prod.fst) := by
  unfold nextEntry
  by_cases hse : s.isEmpty = true
  · have hnil : s = [] := List.isEmpty_iff.1 hse
    subst hnil
    simp
  · rw [Bool.not_eq_true] at hse
    have hrem : s.filter (fun it => !it.2.eof) = [] := by
      rw [List.filter_eq_nil_iff]
      intro a ha
      simp [hall a ha]
    simp only [hse, Bool.false_eq_true, if_false, hrem, List.isEmpty_nil, if_true]

/-- The surviving set after a successful `next_entry` is again well-formed. -/
theorem step_SetWS {T : Type} [LinearOrder T] (parse : String → Option T)
    (s : List (String × Logfile T)) (hws : SetWS parse s) (p : String) (lf : Logfile T) :
    SetWS parse (setLog p (Logfile.advance parse lf).2 (s.filter (fun it => !it.2.eof))) := by
  constructor
  · rw [map_fst_setLog]
    exact keys_filter_nodup s _ hws.1
  · intro it hit
    rcases it with ⟨q, lg⟩
    rcases mem_setLog _ _ _ q lg hit with ⟨_, hlg⟩ | ⟨hmem, _⟩
    · subst hlg
      exact advance_ReadAhead parse lf
    · exact hws.2 (q, lg) (List.mem_filter.1 hmem).1

/-- Over a whole merge run that terminates by exhaustion, the pathnames
closed are exactly the pathnames initially in the set, each exactly once. -/
theorem run_closed_perm {T : Type} [LinearOrder T] (parse : String → Option T) :
    ∀ (fuel : Nat) (s : List (String × Logfile T)), SetWS parse s →
      (runMerge parse fuel s).2.2 = true →
      List.Perm (runMerge parse fuel s).2.1 (s.map Prod.fst) := by
  intro fuel
  induction fuel with
  | zero =>
    intro s _ hdone
    simp [runMerge] at hdone
  | succ n ih =>
    intro s hws hdone
    by_cases hlive : ∃ it ∈ s, it.2.eof = false
    · obtain ⟨p, lf, t, hlf, he, hts, hmin, hEq⟩ := nextEntry_ok parse s hws hlive
      rw [runMerge, hEq] at hdone ⊢
      simp only at hdone ⊢
      have hws2 := step_SetWS parse s hws p lf
      have hperm := ih _ hws2 hdone
      refine List.Perm.trans (List.Perm.append_left _ hperm) ?_
      rw [map_fst_setLog]
      rw [← List.map_append]
      exact (List.filter_append_perm _ s).map Prod.fst
    · have hall : ∀ it ∈ s, it.2.eof = true := by
        intro it hit
        by_contra hc
        rw [Bool.not_eq_true] at hc
        exact hlive ⟨it, hit, hc⟩
      rw [runMerge, nextEntry_all_eof parse s hall]
      simp only
      rw [List.filter_eq_self.2 hall]

/-- Merge-set invariant for the ordering theorem: distinct keys, every
source internally sorted, and every live buffered timestamp at least the
lower bound `lb` (the timestamp last emitted, if any). -/
def SetOrd {T : Type} [LinearOrder T] (parse : String → Option T) (lb : Option T)
    (s : List (String × Logfile T)) : Prop :=
  (s.map Prod.fst).Nodup ∧ ∀ it ∈ s, SrcOk parse it.2 ∧
    (it.2.eof = false → ∀ u, it.2.ts = some u → ∀ b, lb = some b → b ≤ u)

theorem SetOrd_WS {T : Type} [LinearOrder T] (parse : String → Option T) (lb : Option T)
    (s : List (String × Logfile T)) (h : SetOrd parse lb s) : SetWS parse s := by
  refine ⟨h.1, ?_⟩
  intro it hit he
  obtain ⟨t, hts, hline, _⟩ := (h.2 it hit).1 he
  exact ⟨t, hts, hline⟩

/-- Over any run from a set of internally sorted sources, the emitted
entries all carry a recognised timestamp, those timestamps are
non-decreasing, and they are all at least the lower bound. -/
theorem run_sorted {T : Type} [LinearOrder T] (parse : String → Option T) :
    ∀ (fuel : Nat) (lb : Option T) (s : List (String × Logfile T)), SetOrd parse lb s →
      List.Sorted (· ≤ ·)
        ((runMerge parse fuel s).1.filterMap (fun pe => entryTs parse pe.2)) ∧
      (∀ pe ∈ (runMerge parse fuel s).1, (entryTs parse pe.2).isSome) ∧
      (∀ pe ∈ (runMerge parse fuel s).1, ∀ u, entryTs parse pe.2 = some u →
        ∀ b, lb = some b → b ≤ u) := by
  intro fuel
  induction fuel with
  | zero =>
    intro lb s _
    refine ⟨by simp [runMerge], ?_, ?_⟩
    · intro pe hpe
      simp [runMerge] at hpe
    · intro pe hpe
      simp [runMerge] at hpe
  | succ n ih =>
    intro lb s hord
    by_cases hlive : ∃ it ∈ s, it.2.eof = false
    · obtain ⟨p, lf, t, hlf, he, hts, hmin, hEq⟩ :=
        nextEntry_ok parse s (SetOrd_WS parse lb s hord) hlive
      obtain ⟨t0, hts0, hline, hsort⟩ := (hord.2 (p, lf) hlf).1 he
      rw [hts] at hts0
      cases hts0
      have hlb : ∀ b, lb = some b → b ≤ t := fun b hb =>
        (hord.2 (p, lf) hlf).2 he t hts b hb
      have hets : entryTs parse (Logfile.advance parse lf).1 = some t := by
        rw [advance_fst]
        exact hline
      have hord2 : SetOrd parse (some t)
          (setLog p (Logfile.advance parse lf).2 (s.filter (fun it => !it.2.eof))) := by
        constructor
        · rw [map_fst_setLog]
          exact keys_filter_nodup s _ hord.1
        · intro it hit
          rcases it with ⟨q, lg⟩
          rcases mem_setLog _ _ _ q lg hit with ⟨_, hlg⟩ | ⟨hmem, _⟩
          · subst hlg
            obtain ⟨hsrc, hge⟩ := advance_SrcOk parse lf t hsort
            refine ⟨hsrc, ?_⟩
            intro he2 u hu b hb
            cases hb
            exact hge u hu he2
          · have hmem2 := List.mem_filter.1 hmem
            refine ⟨(hord.2 (q, lg) hmem2.1).1, ?_⟩
            intro he2 u hu b hb
            cases hb
            exact hmin (q, lg) hmem2.1 he2 u hu
      obtain ⟨ihs, ihsome, ihlb⟩ := ih (some t) _ hord2
      rw [runMerge, hEq]
      simp only
      refine ⟨?_, ?_, ?_⟩
      · rw [List.filterMap_cons]
        simp only [hets]
        rw [List.sorted_cons]
        refine ⟨?_, ihs⟩
        intro b hb
        obtain ⟨pe, hpe, hpet⟩ := List.mem_filterMap.1 hb
        exact ihlb pe hpe b hpet t rfl
      · intro pe hpe
        rcases List.mem_cons.1 hpe with h0 | h0
        · subst h0
          rw [hets]
          rfl
        · exact ihsome pe h0
      · intro pe hpe u hu b hb
        rcases List.mem_cons.1 hpe with h0 | h0
        · subst h0
          rw [hets] at hu
          cases hu
          exact hlb b hb
        · exact le_trans (hlb b hb) (ihlb pe h0 u hu t rfl)
    · have hall : ∀ it ∈ s, it.2.eof = true := by
        intro it hit
        by_contra hc
        rw [Bool.not_eq_true] at hc
        exact hlive ⟨it, hit, hc⟩
      rw [runMerge, nextEntry_all_eof parse s hall]
      refine ⟨by simp, ?_, ?_⟩
      · intro pe hpe
        simp at hpe
      · intro pe hpe
        simp at hpe

/-! ## Concrete instances used by counterexamples and witnesses -/

/-- A custom pattern matching no line at all. -/
def neverPat : List Char → Option (List Char) := fun _ => none

/-- A custom pattern matching every line (with an empty capture). -/
def alwaysPat : List Char → Option (List Char) := fun _ => some []

/-- A demonstration detector: a line whose first character is a digit
carries that digit as its timestamp. -/
def demoParse (s : String) : Option Nat :=
  match s.data with
  | [] => none
  | c :: _ => if c.isDigit then some (c.toNat - 48) else none

/-! ## Claims -/

/-- Claim C1, counterexample. The claim says that with a custom rule
configured, a line that does not match the custom pattern is classified as
a continuation line (detect returns none) even if it matches a built-in
pattern.  In the code `parse_datetime` falls through to the built-in chain
when the custom pattern does not match: on the line
`2020/01/02 03:04:05.6 boot` with a custom pattern matching nothing,
detection returns a timestamp (from the iso8601 built-in), not none. -/
theorem claim_C1_counterexample :
    neverPat (("2020/01/02 03:04:05.6 boot\n").data) = none ∧
    parse_datetime (fun _ _ => .ok (0 : Nat)) (fun _ => .ok 0) (some neverPat) []
      (("2020/01/02 03:04:05.6 boot\n").data) = .ok (some 0) ∧
    (Except.ok (some 0) : Except Unit (Option Nat)) ≠ .ok none := by
  refine ⟨rfl, rfl, ?_⟩
  intro h
  injection h with h2
  cases h2

/-- Claim C1 (amended): when a custom rule is configured it is tried first,
but it does not replace the built-in chain: on a line the custom pattern
does not match, detection proceeds exactly as if no custom rule were
configured (the built-in patterns are still consulted). -/
theorem claim_C1_theorem {DT : Type} (strptime : List Char → List Char → Except Unit DT)
    (utcfromtimestamp : List Char → Except Unit DT)
    (pat : List Char → Option (List Char)) (fmt : List Char) (line : List Char)
    (h : pat line = none) :
    parse_datetime strptime utcfromtimestamp (some pat) fmt line =
      parse_datetime strptime utcfromtimestamp none fmt line := by
  simp only [parse_datetime, h]

theorem claim_C1_witness :
    neverPat (("2020/01/02 03:04:05.6 boot\n").data) = none ∧
    parse_datetime (fun _ _ => .ok (0 : Nat)) (fun _ => .ok 0) (some neverPat) []
        (("2020/01/02 03:04:05.6 boot\n").data) =
      parse_datetime (fun _ _ => .ok (0 : Nat)) (fun _ => .ok 0) none []
        (("2020/01/02 03:04:05.6 boot\n").data) :=
  ⟨rfl, claim_C1_theorem (fun _ _ => .ok (0 : Nat)) (fun _ => .ok 0) neverPat []
    (("2020/01/02 03:04:05.6 boot\n").data) rfl⟩

/-- Claim C2, counterexample. The claim says a malformed custom format
string makes the program fail at startup, before any log line is processed.
In the code only the regex is compiled at startup; the format string is
stored unvalidated, so startup proceeds, and the first failure is the
per-line `strptime` call on the first line matching the custom pattern
(modelled by a `strptime` that rejects every text under this format). -/
theorem claim_C2_counterexample :
    mainStartup (fun _ => .ok alwaysPat) [("a"), ("b")] (some ("x")) (some ("%Q")) =
      .proceed (some alwaysPat) (some ("%Q")) ∧
    parse_datetime (fun _ _ => (.error () : Except Unit Nat)) (fun _ => .ok 0)
      (some alwaysPat) (("%Q").data) (("hello\n").data) = .error () ∧
    (Startup.proceed (some alwaysPat) (some ("%Q"))) ≠
      (Startup.usageExit 1 : Startup (List Char → Option (List Char))) ∧
    (Startup.proceed (some alwaysPat) (some ("%Q"))) ≠
      (Startup.crash : Startup (List Char → Option (List Char))) :=
  ⟨rfl, rfl, fun h => Startup.noConfusion h, fun h => Startup.noConfusion h⟩

/-- Claim C2 (amended): a malformed custom pattern does fail at startup
(`re.compile` raises before any stream is opened), and with a well-formed
pattern startup always succeeds whatever the format string is — the format
is never validated at startup; a malformed format first fails per-line,
when the first line matching the custom pattern is parsed. -/
theorem claim_C2_theorem {Pat : Type} (compile : String → Except Unit Pat)
    (logfiles : List String) (r : String) (fmt : Option String)
    (h2 : 2 ≤ logfiles.length) (hr : r ≠ "") (hf : truthy fmt = true) :
    (compile r = .error () → mainStartup compile logfiles (some r) fmt = .crash) ∧
    (∀ p, compile r = .ok p →
      mainStartup compile logfiles (some r) fmt = .proceed (some p) fmt) ∧
    (∀ {DT : Type} (strptime : List Char → List Char → Except Unit DT)
      (utc : List Char → Except Unit DT) (pat : List Char → Option (List Char))
      (cfmt line grp : List Char), pat line = some grp →
      strptime grp cfmt = .error () →
      parse_datetime strptime utc (some pat) cfmt line = .error ()) := by
  have hlen : ¬logfiles.length < 2 := Nat.not_lt.2 h2
  have htr : truthy (some r) = true := by
    simp [truthy, hr]
  refine ⟨?_, ?_, ?_⟩
  · intro hc
    unfold mainStartup
    rw [if_neg hlen, htr, hf]
    simp [hc]
  · intro p hc
    unfold mainStartup
    rw [if_neg hlen, htr, hf]
    simp [hc]
  · intro DT strptime utc pat cfmt line grp hpat hstr
    simp [parse_datetime, hpat, hstr, Except.map]

theorem claim_C2_witness :
    ((fun _ => (.error () : Except Unit (List Char → Option (List Char)))) ("x") =
        .error () →
      mainStartup (fun _ => (.error () : Except Unit (List Char → Option (List Char))))
        [("a"), ("b")] (some ("x")) (some ("%Q")) = .crash) ∧
    (mainStartup (fun _ => (.ok alwaysPat : Except Unit (List Char → Option (List Char))))
      [("a"), ("b")] (some ("x")) (some ("%Q")) = .proceed (some alwaysPat) (some ("%Q"))) ∧
    (parse_datetime (fun _ _ => (.error () : Except Unit Nat)) (fun _ => .ok 0)
      (some alwaysPat) (("%Q").data) (("hello\n").data) = .error ()) := by
  have h1 := claim_C2_theorem
    (fun _ => (.error () : Except Unit (List Char → Option (List Char))))
    [("a"), ("b")] ("x") (some ("%Q")) (by decide) (by decide) (by decide)
  have h2 := claim_C2_theorem
    (fun _ => (.ok alwaysPat : Except Unit (List Char → Option (List Char))))
    [("a"), ("b")] ("x") (some ("%Q")) (by decide) (by decide) (by decide)
  exact ⟨fun _ => h1.1 rfl, h2.2.1 alwaysPat rfl,
    h2.2.2 (fun _ _ => (.error () : Except Unit Nat)) (fun _ => .ok 0) alwaysPat
      (("%Q").data) (("hello\n").data) [] rfl rfl⟩

/-! ## Label-loop lemmas for claim C5 -/

theorem lookupD_dictInsert_self {V : Type} (k : String) (v : V) (dflt : V) :
    ∀ (d : List (String × V)), lookupD (dictInsert k v d) k dflt = v := by
  intro d
  induction d with
  | nil => simp [dictInsert, lookupD, List.lookup]
  | cons kv rest ih =>
    rcases kv with ⟨k0, v0⟩
    rw [dictInsert]
    by_cases hk : k0 = k
    · subst hk
      simp [lookupD, List.lookup]
    · rw [if_neg hk]
      have hb : (k == k0) = false := by
        simp
        intro hc
        exact hk hc.symm
      unfold lookupD
      simp only [List.lookup, hb]
      exact ih

theorem lookupD_dictInsert_other {V : Type} (k : String) (v : V) (q : String) (dflt : V)
    (hq : q ≠ k) : ∀ (d : List (String × V)),
      lookupD (dictInsert k v d) q dflt = lookupD d q dflt := by
  intro d
  induction d with
  | nil =>
    have hb : (q == k) = false := by simp [hq]
    simp [dictInsert, lookupD, List.lookup, hb]
  | cons kv rest ih =>
    rcases kv with ⟨k0, v0⟩
    rw [dictInsert]
    by_cases hk : k0 = k
    · subst hk
      have hb : (q == k0) = false := by simp [hq]
      unfold lookupD
      simp only [List.lookup, hb]
    · rw [if_neg hk]
      by_cases hq0 : q = k0
      · subst hq0
        unfold lookupD
        simp only [List.lookup, beq_self_eq_true]
      · have hb : (q == k0) = false := by simp [hq0]
        unfold lookupD
        simp only [List.lookup, hb]
        exact ih

/-- Keys not among the remaining paths are untouched by the label loop. -/
theorem buildLabelsLoop_untouched (labels : List String) (limit : Nat) (noLabel : Bool) :
    ∀ (paths : List String) (i : Nat) (acc : List (String × String)) (q : String),
      q ∉ paths →
      lookupD (buildLabelsLoop labels limit noLabel i paths acc) q ("") =
        lookupD acc q ("") := by
  intro paths
  induction paths with
  | nil => intro i acc q _; rfl
  | cons p rest ih =>
    intro i acc q hq
    rw [buildLabelsLoop]
    rw [ih (i + 1) _ q (fun hmem => hq (List.mem_cons_of_mem p hmem))]
    cases noLabel with
    | true => rfl
    | false =>
      simp only [Bool.false_eq_true, if_false]
      exact lookupD_dictInsert_other p _ q ("") (fun hc => hq (by simp [hc])) acc

/-- The label loop assigns to the path at (0-based) position `k`, processed
with 1-based index `i + k`, exactly the label `labelFor labels limit (i+k)`,
provided the paths are distinct and the path was not already a key. -/
theorem buildLabelsLoop_lookup (labels : List String) (limit : Nat) :
    ∀ (paths : List String) (i : Nat) (acc : List (String × String)),
      paths.Nodup → ∀ (k : Nat) (hk : k < paths.length),
      paths.get ⟨k, hk⟩ ∉ acc.map Prod.fst →
      lookupD (buildLabelsLoop labels limit false i paths acc) (paths.get ⟨k, hk⟩) ("") =
        labelFor labels limit (i + k) := by
  intro paths
  induction paths with
  | nil => intro i acc _ k hk; simp at hk
  | cons p rest ih =>
    intro i acc hnd k hk hnew
    rw [List.nodup_cons] at hnd
    rw [buildLabelsLoop]
    simp only [Bool.false_eq_true, if_false]
    cases k with
    | zero =>
      simp only [List.get]
      rw [buildLabelsLoop_untouched labels limit false rest (i + 1) _ p hnd.1]
      rw [lookupD_dictInsert_self, Nat.add_zero]
    | succ k2 =>
      simp only [List.get]
      have hk2 : k2 < rest.length := by
        simp at hk
        omega
      have hget : rest.get ⟨k2, hk2⟩ ∈ rest := rest.get_mem _ _
      have hnp : rest.get ⟨k2, hk2⟩ ≠ p := by
        intro hc
        rw [hc] at hget
        exact hnd.1 hget
      have hnew2 : rest.get ⟨k2, hk2⟩ ∉
          (dictInsert p (labelFor labels limit i) acc).map Prod.fst := by
        intro hmem
        rcases mem_keys_dictInsert p _ acc _ hmem with h1 | h1
        · exact hnp h1
        · exact hnew (by simpa using h1)
      have := ih (i + 1) _ hnd.2 k2 hk2 hnew2
      rw [this]
      congr 1
      omega

/-- Claim C5, counterexample. The claim says every log file without a
supplied label gets the generated `logN ` label unless `--no-prefix` is
given.  But with `--colorize` in effect on a terminal and no `--prefix`
supplied, the code sets `no_prefix` (line 197) even though `--no-prefix`
was not given: the first file's label is the empty string, not `log1 `. -/
theorem claim_C5_counterexample :
    lookupD (buildLabels none false true true [("a"), ("b")]) ("a") ("") = "" ∧
    ("" : String) ≠ ("log1 ") := by
  refine ⟨rfl, ?_⟩
  decide

/-- Claim C5 (amended): labels are suppressed not only by `--no-prefix` but
also when colorize is in effect (flag given and stdout a terminal) with no
supplied label list.  Otherwise, for distinct log files, the file at
1-based position `k+1` gets the supplied label followed by a space while
labels remain, and the generated label `log(k+1) ` (1-indexed by input
order) past the end of the supplied list. -/
theorem claim_C5_theorem (labelArg : Option (List String))
    (noLabelFlag colorizeArg isatty : Bool) (logfiles : List String)
    (hnd : logfiles.Nodup)
    (hno : (noLabelFlag ||
      ((if isatty then colorizeArg else false) &&
        ((labelArg.getD []).length == 0))) = false)
    (k : Nat) (hk : k < logfiles.length) :
    lookupD (buildLabels labelArg noLabelFlag colorizeArg isatty logfiles)
        (logfiles.get ⟨k, hk⟩) ("") =
      if k + 1 ≤ (labelArg.getD []).length
      then (labelArg.getD []).getD k ("") ++ " "
      else ("log") ++ toString (k + 1) ++ (" ") := by
  simp only [buildLabels]
  rw [hno]
  have hlk := buildLabelsLoop_lookup (labelArg.getD []) (labelArg.getD []).length
    logfiles 1 [] hnd k hk (by simp)
  rw [hlk]
  unfold labelFor
  have h12 : 1 + k = k + 1 := Nat.add_comm 1 k
  rw [h12, Nat.add_sub_cancel]

theorem claim_C5_witness :
    lookupD (buildLabels (some [("A")]) false false false [("x"), ("y")]) ("x") ("") =
      ("A ") ∧
    lookupD (buildLabels (some [("A")]) false false false [("x"), ("y")]) ("y") ("") =
      ("log2 ") := by
  have h0 := claim_C5_theorem (some [("A")]) false false false [("x"), ("y")]
    (by decide) (by decide) 0 (by decide)
  have h1 := claim_C5_theorem (some [("A")]) false false false [("x"), ("y")]
    (by decide) (by decide) 1 (by decide)
  exact ⟨h0, h1⟩

/-- Claim C6, counterexample. The claim says supplying exactly one of
`--regex` and `--format` is a usage error with exit code 1.  The code tests
python truthiness (`bool(args.format) != bool(args.regex)`), so supplying
only `--regex` with the empty string as its value — exactly one of the two
options — passes the check and the program proceeds. -/
theorem claim_C6_counterexample :
    mainStartup (fun _ => (.ok () : Except Unit Unit)) [("a"), ("b")] (some ("")) none =
      .proceed none none ∧
    (Startup.proceed none none : Startup Unit) ≠ .usageExit 1 :=
  ⟨rfl, fun h => Startup.noConfusion h⟩

/-- Claim C6 (amended): fewer than two log files is a usage error with exit
code 1; `--regex`/`--format` must be supplied together *with truthy
(non-empty) values* — the usage error fires exactly when one of the two is
truthy and the other is not, an empty string counting as not supplied; and
the merge loop exits with code 0 when it completes by exhaustion. -/
theorem claim_C6_theorem {Pat T : Type} [LinearOrder T] :
    (∀ (compile : String → Except Unit Pat) (logfiles : List String)
      (regex fmtStr : Option String), logfiles.length < 2 →
      mainStartup compile logfiles regex fmtStr = .usageExit 1) ∧
    (∀ (compile : String → Except Unit Pat) (logfiles : List String)
      (regex fmtStr : Option String), 2 ≤ logfiles.length →
      truthy fmtStr ≠ truthy regex →
      mainStartup compile logfiles regex fmtStr = .usageExit 1) ∧
    (∀ (parse : String → Option T) (fuel : Nat) (s : List (String × Logfile T)),
      (runMerge parse fuel s).2.2 = true → mainLoopExit parse fuel s = some 0) := by
  refine ⟨?_, ?_, ?_⟩
  · intro compile logfiles regex fmtStr hlen
    unfold mainStartup
    rw [if_pos hlen]
  · intro compile logfiles regex fmtStr hlen hneq
    unfold mainStartup
    rw [if_neg (Nat.not_lt.2 hlen), if_pos (by simpa [bne_iff_ne] using hneq)]
  · intro parse fuel s hdone
    unfold mainLoopExit
    rw [if_pos hdone]

theorem claim_C6_witness :
    mainStartup (fun _ => (.ok () : Except Unit Unit)) [("a")] none none = .usageExit 1 ∧
    mainStartup (fun _ => (.ok () : Except Unit Unit)) [("a"), ("b")] (some ("x")) none =
      .usageExit 1 ∧
    mainLoopExit demoParse 1 ([] : List (String × Logfile Nat)) = some 0 := by
  refine ⟨?_, ?_, ?_⟩
  · exact (@claim_C6_theorem Unit Nat _).1 (fun _ => .ok ()) [("a")] none none
      (by decide)
  · exact (@claim_C6_theorem Unit Nat _).2.1 (fun _ => .ok ()) [("a"), ("b")]
      (some ("x")) none (by decide) (by decide)
  · exact (@claim_C6_theorem Unit Nat _).2.2 demoParse 1 [] rfl

/-- Claim C7: construction reads and discards all leading lines up to (but
not including) the first line recognised as carrying a timestamp.  First
conjunct: a stream with no timestamped line leaves the reader exhausted
from the start.  Second conjunct: on `pre ++ l :: post` with `pre` all
unrecognised and `l` timestamped, the constructed reader buffers `l` (with
its timestamp) and holds exactly `post`; draining it emits exactly
`l :: post`, so no discarded leading line ever appears in an emitted
entry. -/
theorem claim_C7 {T : Type} (parse : String → Option T) (lines pre post : List String)
    (l : String) (t : T) :
    ((∀ x ∈ lines, parse x = none) → (Logfile.init parse lines).eof = true) ∧
    ((∀ x ∈ pre, parse x = none) → parse l = some t →
      Logfile.init parse (pre ++ l :: post) =
        { stream := post, eof := false, ts := some t, line := l } ∧
      (drain parse (post.length + 1) (Logfile.init parse (pre ++ l :: post))).flatten =
        l :: post) := by
  constructor
  · exact init_eof_of_no_timestamp parse lines
  · intro hpre hl
    have hinit := init_eq_of_split parse pre l post t hpre hl
    refine ⟨hinit, ?_⟩
    rw [hinit]
    exact drain_flatten parse (post.length + 1) _ rfl (by simp)

theorem claim_C7_witness :
    (Logfile.init demoParse [("hdr\n")]).eof = true ∧
    Logfile.init demoParse ([("hdr\n")] ++ ("1 a\n") :: [(" cont\n")]) =
      { stream := [(" cont\n")], eof := false, ts := some 1, line := ("1 a\n") } ∧
    (drain demoParse 2 (Logfile.init demoParse
      ([("hdr\n")] ++ ("1 a\n") :: [(" cont\n")]))).flatten =
      ("1 a\n") :: [(" cont\n")] := by
  have h1 := (claim_C7 demoParse [("hdr\n")] [("hdr\n")] [(" cont\n")] ("1 a\n") 1).1
    (by decide)
  have h2 := (claim_C7 demoParse [("hdr\n")] [("hdr\n")] [(" cont\n")] ("1 a\n") 1).2
    (by decide) (by decide)
  exact ⟨h1, h2.1, h2.2⟩

/-- Claim C8, the read-ahead invariant: it holds after construction; and on
any non-exhausted reader satisfying it, extraction succeeds and returns the
buffered first line (whose parse is the buffered timestamp) followed only by
continuation lines, and the resulting reader satisfies the invariant again
(either it buffers the next timestamped line or it is exhausted — in both
cases the accumulated lines were returned). -/
theorem claim_C8 {T : Type} (parse : String → Option T) (lines : List String)
    (lf : Logfile T) :
    ReadAhead parse (Logfile.init parse lines) ∧
    (ReadAhead parse lf → lf.eof = false →
      ∃ e lf2, Logfile.entry parse lf = .ok (e, lf2) ∧
        e.head? = some lf.line ∧
        (∀ t, lf.ts = some t → parse lf.line = some t) ∧
        (∀ c ∈ e.tail, parse c = none) ∧
        ReadAhead parse lf2) := by
  constructor
  · exact init_ReadAhead parse lines
  · intro hra he
    refine ⟨(Logfile.advance parse lf).1, (Logfile.advance parse lf).2, ?_, ?_, ?_, ?_, ?_⟩
    · simp [Logfile.entry, he]
    · rw [advance_fst]
      rfl
    · intro t2 ht2
      obtain ⟨t, hts, hline⟩ := hra he
      rw [hts] at ht2
      cases ht2
      exact hline
    · exact advance_fst_tail_cont parse lf
    · exact advance_ReadAhead parse lf

theorem claim_C8_witness :
    ReadAhead demoParse (Logfile.init demoParse [("1 a\n"), (" c\n"), ("2 b\n")]) ∧
    ∃ e lf2, Logfile.entry demoParse
        { stream := [(" c\n"), ("2 b\n")], eof := false, ts := some 1,
          line := ("1 a\n") } = .ok (e, lf2) ∧
      e.head? = some ("1 a\n") ∧
      (∀ t, (some 1 : Option Nat) = some t → demoParse ("1 a\n") = some t) ∧
      (∀ c ∈ e.tail, demoParse c = none) ∧
      ReadAhead demoParse lf2 := by
  have h := claim_C8 demoParse [("1 a\n"), (" c\n"), ("2 b\n")]
    { stream := [(" c\n"), ("2 b\n")], eof := false, ts := some 1, line := ("1 a\n") }
  refine ⟨h.1, ?_⟩
  have h2 := h.2 (fun _ => ⟨1, rfl, by decide⟩) rfl
  exact h2

/-! ## Selection lemma specific to claim C3 -/

theorem scan_c3 {T : Type} [LinearOrder T] (u v : List (String × Logfile T)) (b : String)
    (lfB : Logfile T) (t : T) (hB : lfB.eof = false) (hBts : lfB.ts = some t)
    (hmin_u : ∀ it ∈ u, it.2.eof = false → ∀ w, it.2.ts = some w → t ≤ w)
    (hlast : ∀ it ∈ v, it.2.eof = false → ∀ w, it.2.ts = some w → t < w) :
    (u ++ (b, lfB) :: v).foldl scanStep none = some (b, t) := by
  rw [List.foldl_append]
  have hstep : scanStep (u.foldl scanStep none) (b, lfB) = some (b, t) := by
    apply scanStep_take _ _ t hB hBts
    intro bp bt hacc
    rcases scan_mem u none bp bt hacc with hc | ⟨lf, hlf, he, hts⟩
    · cases hc
    · exact hmin_u (bp, lf) hlf he bt hts
  rw [List.foldl_cons, hstep]
  exact scan_last v b t hlast

/-- `next_entry` computed from a known scan result: with distinct keys, the
winning pathname's reader is extracted. -/
theorem nextEntry_eq_of_best {T : Type} [LinearOrder T] (parse : String → Option T)
    (s : List (String × Logfile T)) (hnd : (s.map Prod.fst).Nodup)
    (p : String) (lf : Logfile T) (t : T)
    (hbest : s.foldl scanStep none = some (p, t)) (hlf : (p, lf) ∈ s)
    (he : lf.eof = false) :
    nextEntry parse s =
      (.ok ((p, (Logfile.advance parse lf).1),
            setLog p (Logfile.advance parse lf).2 (s.filter (fun it => !it.2.eof))),
       (s.filter (fun it => it.2.eof)).map Prod.fst) := by
  have hsne : s.isEmpty = false := by
    cases s
    · simp at hlf
    · rfl
  have hrem : (p, lf) ∈ s.filter (fun it => !it.2.eof) := by
    rw [List.mem_filter]
    exact ⟨hlf, by simp [he]⟩
  have hremne : (s.filter (fun it => !it.2.eof)).isEmpty = false := by
    cases hfe : s.filter (fun it => !it.2.eof)
    · rw [hfe] at hrem
      simp at hrem
    · rfl
  have hlkp : (s.filter (fun it => !it.2.eof)).lookup p = some lf :=
    lookup_of_mem_nodup _ (keys_filter_nodup s _ hnd) p lf hrem
  unfold nextEntry
  simp only [hsne, Bool.false_eq_true, if_false, hremne, hbest, hlkp, he]

/-- Claim C3: when the sources are scanned in supply order, a source whose
buffered timestamp is minimal and that appears after every other source
attaining that minimum (`v`, the sources after it, are all strictly later)
is the one selected and emitted; in particular, for `[A, B]` with equal
timestamps, B's entry is emitted.  The `≤` update in the scan makes the
LAST minimal source win. -/
theorem claim_C3 {T : Type} [LinearOrder T] (parse : String → Option T)
    (u v : List (String × Logfile T)) (b : String) (lfB : Logfile T) (t : T)
    (hnd : ((u ++ (b, lfB) :: v).map Prod.fst).Nodup)
    (hB : lfB.eof = false) (hBts : lfB.ts = some t)
    (hmin : ∀ it ∈ u ++ (b, lfB) :: v, it.2.eof = false → ∀ w, it.2.ts = some w → t ≤ w)
    (hlast : ∀ it ∈ v, it.2.eof = false → ∀ w, it.2.ts = some w → t < w) :
    ∃ s2 closed, nextEntry parse (u ++ (b, lfB) :: v) =
      (.ok ((b, (Logfile.advance parse lfB).1), s2), closed) := by
  have hbest := scan_c3 u v b lfB t hB hBts
    (fun it hit => hmin it (List.mem_append_left _ hit)) hlast
  refine ⟨_, _, nextEntry_eq_of_best parse _ hnd b lfB t hbest ?_ hB⟩
  exact List.mem_append_right _ (List.mem_cons_self _ _)

theorem claim_C3_witness :
    ∃ s2 closed,
      nextEntry demoParse
          [(("a"), { stream := [], eof := false, ts := some 5, line := ("5 a\n") }),
           (("b"), { stream := [], eof := false, ts := some 5, line := ("5 b\n") })] =
        (.ok ((("b"), (Logfile.advance demoParse
          { stream := [], eof := false, ts := some 5, line := ("5 b\n") }).1), s2),
         closed) := by
  have h := claim_C3 demoParse
    [(("a"), { stream := [], eof := false, ts := some 5, line := ("5 a\n") })] []
    ("b") { stream := [], eof := false, ts := some 5, line := ("5 b\n") } 5
    (by decide) rfl rfl ?_ ?_
  · exact h
  · intro it hit he w hts
    have h5 : (some 5 : Option Nat) = some w := by
      rcases List.mem_append.1 hit with h0 | h0
      · simp at h0
        rw [h0] at hts
        exact hts
      · simp at h0
        rw [h0] at hts
        exact hts
    cases h5
    exact le_refl 5
  · intro it hit
    simp at hit

/-- Claim C4: starting from sources whose recognised timestamps are each
non-decreasing (in file order), every entry emitted by repeated
`next_entry` calls carries a timestamp, and the emitted timestamps are
totally ordered: each entry emitted earlier has a timestamp `≤` every entry
emitted later. -/
theorem claim_C4 {T : Type} [LinearOrder T] (parse : String → Option T)
    (files : List (String × List String)) (fuel : Nat)
    (hs : ∀ f ∈ files, List.Sorted (· ≤ ·) (f.2.filterMap parse)) :
    List.Sorted (· ≤ ·) ((runMerge parse fuel (initLogSet parse files)).1.filterMap
      (fun pe => entryTs parse pe.2)) ∧
    ∀ pe ∈ (runMerge parse fuel (initLogSet parse files)).1,
      (entryTs parse pe.2).isSome := by
  have hord : SetOrd parse none (initLogSet parse files) := by
    refine ⟨initLogSet_keys_nodup parse files, ?_⟩
    intro it hit
    rcases it with ⟨q, lg⟩
    obtain ⟨f, hf, hEq⟩ := initLogSet_mem parse files q lg hit
    subst hEq
    refine ⟨init_SrcOk parse f.2 (hs f hf), ?_⟩
    intro _ u _ b hb
    cases hb
  obtain ⟨h1, h2, _⟩ := run_sorted parse fuel none _ hord
  exact ⟨h1, h2⟩

theorem claim_C4_witness :
    List.Sorted (· ≤ ·)
      ((runMerge demoParse 5 (initLogSet demoParse
        [(("a"), [("1 a\n"), ("3 a\n")]), (("b"), [("2 b\n")])])).1.filterMap
        (fun pe => entryTs demoParse pe.2)) ∧
    ∀ pe ∈ (runMerge demoParse 5 (initLogSet demoParse
        [(("a"), [("1 a\n"), ("3 a\n")]), (("b"), [("2 b\n")])])).1,
      (entryTs demoParse pe.2).isSome :=
  claim_C4 demoParse [(("a"), [("1 a\n"), ("3 a\n")]), (("b"), [("2 b\n")])] 5
    (by decide)

/-- Claim C9: the pathnames closed by any `next_entry` call are exactly the
sources it detected exhausted and removed (first conjunct: closing happens
at exhaustion detection and only then, in every branch); and over a merge
run that completes by exhaustion, the multiset of closed pathnames is
exactly the initial set of sources — since the keys are distinct, each
source's stream is closed exactly once, never before its exhaustion is
detected and never a second time (a closed source has left the set). -/
theorem claim_C9 {T : Type} [LinearOrder T] (parse : String → Option T)
    (files : List (String × List String)) (fuel : Nat) :
    (∀ s0 : List (String × Logfile T), (nextEntry parse s0).2 =
      (s0.filter (fun it => it.2.eof)).map Prod.fst) ∧
    ((initLogSet parse files).map Prod.fst).Nodup ∧
    ((runMerge parse fuel (initLogSet parse files)).2.2 = true →
      List.Perm (runMerge parse fuel (initLogSet parse files)).2.1
        ((initLogSet parse files).map Prod.fst)) := by
  refine ⟨nextEntry_closed parse, initLogSet_keys_nodup parse files, ?_⟩
  intro hdone
  apply run_closed_perm parse fuel _ ?_ hdone
  refine ⟨initLogSet_keys_nodup parse files, ?_⟩
  intro it hit
  rcases it with ⟨q, lg⟩
  obtain ⟨f, _, hEq⟩ := initLogSet_mem parse files q lg hit
  subst hEq
  exact init_ReadAhead parse f.2

theorem claim_C9_witness :
    List.Perm (runMerge demoParse 5 (initLogSet demoParse
        [(("a"), [("1 a\n"), ("3 a\n")]), (("b"), [("2 b\n")])])).2.1
      ((initLogSet demoParse
        [(("a"), [("1 a\n"), ("3 a\n")]), (("b"), [("2 b\n")])]).map Prod.fst) :=
  (claim_C9 demoParse [(("a"), [("1 a\n"), ("3 a\n")]), (("b"), [("2 b\n")])] 5).2.2
    (by decide)

/-- The `line[-1]` access in `render` never fails on a non-empty line. -/
theorem render_isSome_of_ne (l : String) (h : l ≠ "") (pfx : Option (List Char))
    (c : Int) : (render l.data pfx c).isSome := by
  unfold render
  split
  · cases hl : l.data.getLast? with
    | none =>
      exfalso
      have hnil : l.data = [] := List.getLast?_eq_none_iff.1 hl
      exact h (String.ext (by rw [hnil]))
    | some c2 =>
      simp only [hl]
      rfl
  · rfl

/-- Claim C10: readers built from streams of non-empty lines (python
readline only returns the empty string at EOF) hold only non-empty lines
(first conjunct); any entry that `next_entry` returns from such a set
consists of non-empty lines, on which `render`'s access to the last
character cannot fail, and the surviving set again holds only non-empty
lines. -/
theorem claim_C10 {T : Type} [LinearOrder T] (parse : String → Option T)
    (lines : List String) (s : List (String × Logfile T)) (hws : SetWS parse s)
    (hne : ∀ it ∈ s, NoEmptyLines it.2)
    (p : String) (e : List String) (s2 : List (String × Logfile T))
    (closed : List String)
    (hok : nextEntry parse s = (.ok ((p, e), s2), closed)) :
    ((∀ l ∈ lines, l ≠ "") → NoEmptyLines (Logfile.init parse lines)) ∧
    (∀ l ∈ e, l ≠ "") ∧
    (∀ l ∈ e, ∀ pfx c, (render l.data pfx c).isSome) ∧
    (∀ it ∈ s2, NoEmptyLines it.2) := by
  have hlive : ∃ it ∈ s, it.2.eof = false := by
    by_contra hc
    have hall : ∀ it ∈ s, it.2.eof = true := by
      intro it hit
      by_contra hc2
      rw [Bool.not_eq_true] at hc2
      exact hc ⟨it, hit, hc2⟩
    rw [nextEntry_all_eof parse s hall, Prod.mk.injEq] at hok
    exact Except.noConfusion hok.1
  obtain ⟨p2, lf, t, hlf, he, hts, _, hEq⟩ := nextEntry_ok parse s hws hlive
  rw [hEq, Prod.mk.injEq] at hok
  have hp : p2 = p := congrArg (fun x => x.1.1) (Except.ok.inj hok.1)
  have hent : (Logfile.advance parse lf).1 = e :=
    congrArg (fun x => x.1.2) (Except.ok.inj hok.1)
  have hs2 : setLog p2 (Logfile.advance parse lf).2 (s.filter (fun it => !it.2.eof)) = s2 :=
    congrArg (fun x => x.2) (Except.ok.inj hok.1)
  obtain ⟨hres, hkeep⟩ := advance_NE parse lf (hne (p2, lf) hlf) he
  rw [hent] at hres
  refine ⟨init_NE parse lines, hres, ?_, ?_⟩
  · intro l hl pfx c
    exact render_isSome_of_ne l (hres l hl) pfx c
  · intro it hit
    rcases it with ⟨q, lg⟩
    rw [← hs2] at hit
    rcases mem_setLog _ _ _ q lg hit with ⟨_, hlg⟩ | ⟨hmem, _⟩
    · subst hlg
      exact hkeep
    · exact hne (q, lg) (List.mem_filter.1 hmem).1

/-- A small concrete reader state used by the claim C10 witness. -/
def c10state : Logfile Nat :=
  { stream := [(" c\n")], eof := false, ts := some 1, line := ("1 a\n") }

theorem claim_C10_witness :
    ((∀ l ∈ [("1 a\n")], l ≠ "") → NoEmptyLines (Logfile.init demoParse [("1 a\n")])) ∧
    (∀ l ∈ [("1 a\n"), (" c\n")], l ≠ ("")) ∧
    (∀ l ∈ [("1 a\n"), (" c\n")], ∀ pfx c,
      (render l.data pfx c).isSome) ∧
    (∀ it ∈ setLog ("a") (Logfile.advance demoParse c10state).2 [(("a"), c10state)],
      NoEmptyLines it.2) := by
  have h := claim_C10 demoParse [("1 a\n")] [(("a"), c10state)]
    ⟨by decide, ?_⟩ ?_ ("a") [("1 a\n"), (" c\n")] _ _ rfl
  · exact h
  · intro it hit
    simp at hit
    rw [hit]
    intro _
    exact ⟨1, rfl, by decide⟩
  · intro it hit
    simp at hit
    rw [hit]
    exact ⟨fun _ => by decide, by decide⟩
